import Mathlib

/-!
Verification of the `addAccountsToBreach` Lambda core from the
haveibeenbreached repository (src/addAccountsToBreach/main.go).

The Go code is shallowly embedded: DynamoDB is modelled as a store mapping
a composite key (PK, SK) to an optional `Account` record, together with
fault switches saying which reads (GetItem) and writes (PutItem) succeed.
Every store call is recorded in an event trace so that claims about the
number and order of reads and writes can be stated.  The email regular
expression is embedded structurally (it is anchored and neither character
class contains the separator, so matching is equivalent to a unique split).
-/

namespace Haveibeenbreached

/-- Splits a character list around every occurrence of `c`, mirroring Go's
`strings.Split` with a one-character separator: `"a@b@c" ↦ ["a","b","c"]`,
`"" ↦ [""]`. The result is always non-empty. -/
def splitOnChar (c : Char) : List Char → List (List Char)
  | [] => [[]]
  | x :: xs =>
      let r := splitOnChar c xs
      if x = c then [] :: r
      else
        match r with
        | [] => [[x]]
        | h :: t => (x :: h) :: t

/-- Joins character lists with a single separator character; the inverse of
`splitOnChar` (used to state what a split decomposes). -/
def joinSep (c : Char) : List (List Char) → List Char
  | [] => []
  | [x] => x
  | x :: y :: rest => x ++ c :: joinSep c (y :: rest)

/-- Code points of the punctuation allowed in the local part of the email
regex of main.go: `. ! # $ % & ' * + / = ? ^ _` and backtick, braces, bar,
tilde, hyphen (listed by code point to stay close to the character class
`[a-zA-Z0-9.!#$%&'*+\/=?^_\x60\x7b|\x7d~-]`). -/
def localCharCodes : List Nat :=
  [33, 35, 36, 37, 38, 39, 42, 43, 45, 46, 47, 61, 63, 94, 95, 96, 123, 124, 125, 126]

/-- Membership in the local-part character class of the email regex. -/
def isLocalChar (c : Char) : Bool :=
  c.isAlphanum || localCharCodes.contains c.toNat

/-- Membership in the domain-label character class `[a-zA-Z0-9-]`. -/
def isLabelChar (c : Char) : Bool :=
  c.isAlphanum || c == '-'

/-- One domain label of the regex: `[a-zA-Z0-9](?:[a-zA-Z0-9-]{0,61}[a-zA-Z0-9])?`,
i.e. 1 to 63 characters, first and last alphanumeric, hyphens only inside. -/
def labelMatch (lab : List Char) : Bool :=
  match lab.head?, lab.getLast? with
  | some a, some b =>
      a.isAlphanum && b.isAlphanum && lab.all isLabelChar && decide (lab.length ≤ 63)
  | _, _ => false

/-- The domain part of the regex: labels separated by single dots,
`[label](?:\.[label])*`. -/
def domainMatch (dom : List Char) : Bool :=
  (splitOnChar '.' dom).all labelMatch

/-- Structural embedding of `emailRegex.MatchString` for the anchored regex
in main.go.  Neither character class contains the `@` character, so an
anchored match exists iff the string splits at a unique `@` into a
non-empty local part and a matching domain. -/
def emailRegexMatch (l : List Char) : Bool :=
  match splitOnChar '@' l with
  | [lp, dom] => !lp.isEmpty && lp.all isLocalChar && domainMatch dom
  | _ => false

/-- The `Email` struct of main.go. -/
structure Email where
  Domain : String
  Alias : String
deriving DecidableEq, Repr

/-- `NewEmail` of main.go: Go-style pair of a value and an optional error.
On a regex match the string is `strings.Split` at `"@"` and fields 0 and 1
are taken; on a non-match the zero `Email` and an error are returned. -/
def NewEmail (emailStr : String) : Email × Option String :=
  if emailRegexMatch emailStr.toList then
    let email := splitOnChar '@' emailStr.toList
    ({ Alias := (email.getD 0 []).asString, Domain := (email.getD 1 []).asString }, none)
  else
    ({ Domain := "", Alias := "" }, some ("not a valid email address: " ++ emailStr))

/-- `Email.Account` of main.go: `fmt.Sprintf("%s@%s", e.Alias, e.Domain)`. -/
def Email.Account (e : Email) : String :=
  e.Alias ++ "@" ++ e.Domain

/-- `Email.PartitionKey` of main.go: `fmt.Sprintf("EMAIL#%s", e.Domain)`. -/
def Email.PartitionKey (e : Email) : String :=
  "EMAIL#" ++ e.Domain

/-- `Email.SortKey` of main.go: `fmt.Sprintf("EMAIL#%s", e.Alias)`. -/
def Email.SortKey (e : Email) : String :=
  "EMAIL#" ++ e.Alias

/-- `contains` of main.go: linear scan returning true on the first equal
element. -/
def contains : List String → String → Bool
  | [], _ => false
  | el :: rest, str => if el = str then true else contains rest str

/-- The `entityType` package variable of main.go. -/
def entityType : String := "Account"

/-- The `tableName` package variable of main.go. -/
def tableName : String := "Breaches"

set_option linter.dupNamespace false

/-- The `Account` struct of main.go (the persisted record). The Go field
`Type` is a Lean keyword and is written `«Type»`. -/
structure Account where
  PK : String
  SK : String
  «Type» : String
  Account : String
  Breaches : List String
deriving DecidableEq, Repr

/-- The composite DynamoDB primary key `(PK, SK)` used by GetItem/PutItem. -/
abbrev Key := String × String

/-- The key of a record, as built in `setAccountBreaches`' GetItem input and
implied by PutItem on the marshalled record. -/
def accountKey (a : Account) : Key := (a.PK, a.SK)

/-- The account built for one email in `mapToAccount`'s loop body. -/
def mkAccount (email : Email) : Account :=
  { PK := email.PartitionKey
    SK := email.SortKey
    «Type» := entityType
    Account := email.Account
    Breaches := [] }

/-- The loop of `mapToAccount`, with its loop state (accumulated `accs`,
error flag `err`).  The source has a bug: after `email, emailErr :=
NewEmail(account)` it tests the stale `err` (always nil) instead of
`emailErr`, so a parse failure never stops the loop and the zero `Email`
is turned into an account.  The branch is embedded as written. -/
def mapToAccountGo : List String → List Account → Option String →
    List Account × Option String
  | [], accs, err => (accs, err)
  | account :: rest, accs, err =>
      let p := NewEmail account
      if err.isSome then (accs, p.2)
      else mapToAccountGo rest (accs ++ [mkAccount p.1]) err

/-- `mapToAccount` of main.go: run the loop, then return the error if the
flag was set, else the accumulated accounts. -/
def mapToAccount (accounts : List String) : Except String (List Account) :=
  match mapToAccountGo accounts [] none with
  | (_, some e) => Except.error e
  | (accs, none) => Except.ok accs

/-- One DynamoDB call: a GetItem on a key or a PutItem of a record. -/
inductive Event where
  | read : Key → Event
  | write : Key → Account → Event
deriving DecidableEq, Repr

/-- True exactly for `Event.read`. -/
def Event.isRead : Event → Bool
  | .read _ => true
  | .write _ _ => false

/-- True exactly for `Event.write`. -/
def Event.isWrite : Event → Bool
  | .read _ => false
  | .write _ _ => true

/-- Error kinds the Handler can return, classifying the Go `error` values:
a parse failure from `NewEmail` (carrying its message), a failed GetItem, a
failed PutItem (carrying the key). -/
inductive HErr where
  | invalidEmail : String → HErr
  | storeRead : HErr
  | storeWrite : Key → HErr
deriving DecidableEq, Repr

/-- Error text, standing in for Go's `err.Error()`; the store errors'
underlying text is external to the repository and modelled by a constant. -/
def describeHErr : HErr → String
  | .invalidEmail m => m
  | .storeRead => "GetItem failed"
  | .storeWrite _ => "PutItem failed"

/-- The DynamoDB table as seen by this Lambda: the records under each key,
plus fault switches saying which GetItem and PutItem calls succeed. -/
structure Store where
  data : Key → Option Account
  readOk : Key → Bool
  writeOk : Key → Bool

/-- A store whose every read and write succeeds. -/
def mkOkStore (d : Key → Option Account) : Store :=
  { data := d, readOk := fun _ => true, writeOk := fun _ => true }

/-- The loop of `setAccountBreaches`: per account, one GetItem (recorded in
the trace); on failure set the error flag and break; on a present item merge
the breach name into the existing breach list unless already contained; on
an absent item use the singleton list.  `UnmarshalMap` cannot fail in the
model because the store holds `Account` records directly. -/
def setAccountBreachesGo (st : Store) (breachName : String) :
    List Account → List Account → List Event →
    List Account × List Event × Option HErr
  | [], accs, tr => (accs, tr, none)
  | account :: rest, accs, tr =>
      let k := accountKey account
      let tr2 := tr ++ [Event.read k]
      if st.readOk k then
        match st.data k with
        | some existingAcc =>
            let breaches :=
              if contains existingAcc.Breaches breachName then existingAcc.Breaches
              else existingAcc.Breaches ++ [breachName]
            setAccountBreachesGo st breachName rest
              (accs ++ [{ account with Breaches := breaches }]) tr2
        | none =>
            setAccountBreachesGo st breachName rest
              (accs ++ [{ account with Breaches := [breachName] }]) tr2
      else (accs, tr2, some HErr.storeRead)

/-- `setAccountBreaches` of main.go: run the loop; on an error return it
(discarding the accumulated list, as the source returns an empty slice), else
return the updated accounts.  The trace of GetItem calls is also returned. -/
def setAccountBreaches (st : Store) (accounts : List Account)
    (breachName : String) : List Event × Except HErr (List Account) :=
  match setAccountBreachesGo st breachName accounts [] [] with
  | (accs, tr, none) => (tr, Except.ok accs)
  | (_, tr, some e) => (tr, Except.error e)

/-- `marshalMapToAttributeValues` of main.go.  In the model an attribute
map is the record itself, so marshalling is the identity; `MarshalMap` of
this struct cannot fail (and the source's stale-`err` test would ignore a
failure anyway, as in `mapToAccount`). -/
def marshalMapToAttributeValues (accounts : List Account) :
    Except String (List Account) :=
  Except.ok accounts

/-- Overwrite of one item under a key: DynamoDB PutItem semantics on the
modelled table contents. -/
def upd (d : Key → Option Account) (k : Key) (a : Account) :
    Key → Option Account :=
  fun k2 => if k2 = k then some a else d k2

/-- The PutItem loop in `Handler`: per record, one PutItem (recorded in the
trace); a successful put overwrites the item under the record's key; a
failed put returns the error immediately, keeping earlier writes. -/
def putAll (st : Store) : List Account → Store × List Event × Option HErr
  | [] => (st, [], none)
  | account :: rest =>
      let k := accountKey account
      if st.writeOk k then
        let st2 : Store := { st with data := upd st.data k account }
        let r := putAll st2 rest
        (r.1, Event.write k account :: r.2.1, r.2.2)
      else (st, [Event.write k account], some (HErr.storeWrite k))

/-- The anonymous `PathParameters` struct of `AddAccountEvent`. -/
structure PathParams where
  BreachName : String
deriving DecidableEq, Repr

/-- The `AddAccountEvent` struct of main.go. -/
structure AddAccountEvent where
  Accounts : List String
  PathParameters : PathParams
deriving DecidableEq, Repr

/-- The `Response` struct of main.go (an API Gateway proxy response). -/
structure Response where
  StatusCode : Nat
  Body : String
  IsBase64Encoded : Bool
  Headers : List (String × String)
deriving DecidableEq, Repr

/-- One hex digit, lower case, as produced by Go's JSON encoder. -/
def hexDigit (n : Nat) : Char :=
  if n < 10 then Char.ofNat (48 + n) else Char.ofNat (87 + n)

/-- Go `encoding/json` string escaping for one character (default encoder:
quotes, backslash, HTML characters, control characters, U+2028/U+2029). -/
def goJsonEscapeChar (c : Char) : String :=
  if c = '"' then "\\\""
  else if c = '\\' then "\\\\"
  else if c = '<' then "\\u003c"
  else if c = '>' then "\\u003e"
  else if c = '&' then "\\u0026"
  else if c = '\n' then "\\n"
  else if c = '\r' then "\\r"
  else if c = '\t' then "\\t"
  else if c.toNat < 32 then
    "\\u00" ++ String.mk [hexDigit (c.toNat / 16), hexDigit (c.toNat % 16)]
  else if c.toNat = 8232 then "\\u2028"
  else if c.toNat = 8233 then "\\u2029"
  else String.singleton c

/-- Go `encoding/json` escaping of a whole string. -/
def goJsonEscape (s : String) : String :=
  s.data.foldl (fun acc c => acc ++ goJsonEscapeChar c) ""

/-- `json.Marshal(map[string]interface\x7b\x7d\x7b"message": msg\x7d)`:
the body written on success. -/
def jsonMessageBody (msg : String) : String :=
  "\x7b\"message\":\"" ++ goJsonEscape msg ++ "\"\x7d"

/-- What one `Handler` invocation produced: the store afterwards, the trace
of DynamoDB calls in order, the `Response`, and the returned error. -/
structure HandlerResult where
  store : Store
  trace : List Event
  resp : Response
  err : Option HErr

/-- `Handler` of main.go: map raw emails to accounts (parse step), read and
merge each account's breach list (`setAccountBreaches`), marshal, then one
PutItem per account; on success a 200 response whose JSON body reports the
number of accounts and the breach name.  `json.Marshal` of a string map
cannot fail, so that error branch is unreachable in the model. -/
def Handler (st : Store) (event : AddAccountEvent) : HandlerResult :=
  let rawAccounts := event.Accounts
  let breachName := event.PathParameters.BreachName
  match mapToAccount rawAccounts with
  | Except.error e =>
      { store := st, trace := [],
        resp := { StatusCode := 400, Body := "Invalid email: " ++ e,
                  IsBase64Encoded := false, Headers := [] },
        err := some (HErr.invalidEmail e) }
  | Except.ok accounts =>
      let sab := setAccountBreaches st accounts breachName
      match sab.2 with
      | Except.error e =>
          { store := st, trace := sab.1,
            resp := { StatusCode := 400,
                      Body := "Invalid email: " ++ describeHErr e,
                      IsBase64Encoded := false, Headers := [] },
            err := some e }
      | Except.ok accounts2 =>
          match marshalMapToAttributeValues accounts2 with
          | Except.error e =>
              { store := st, trace := sab.1,
                resp := { StatusCode := 400,
                          Body := "Error marshalling new Account: " ++ e,
                          IsBase64Encoded := false, Headers := [] },
                err := some (HErr.invalidEmail e) }
          | Except.ok attrVals =>
              let put := putAll st attrVals
              match put.2.2 with
              | some e =>
                  { store := put.1, trace := sab.1 ++ put.2.1,
                    resp := { StatusCode := 400,
                              Body := "Error adding Account to breach: " ++
                                describeHErr e,
                              IsBase64Encoded := false, Headers := [] },
                    err := some e }
              | none =>
                  let numAccounts := accounts2.length
                  let msg := "Successfully added/updated " ++
                    toString numAccounts ++ " accounts to the " ++
                    breachName ++ " breach."
                  { store := put.1, trace := sab.1 ++ put.2.1,
                    resp := { StatusCode := 200, Body := jsonMessageBody msg,
                              IsBase64Encoded := false,
                              Headers := [("Content-Type", "application/json")] },
                    err := none }

/-- The accounts `mapToAccount` actually produces for a raw batch (because
of the stale-`err` bug it never fails, and invalid emails become the zero
`Email`'s account). -/
def mappedAccounts (raws : List String) : List Account :=
  raws.map (fun r => mkAccount (NewEmail r).1)

/-- The record `setAccountBreaches` builds for one account whose GetItem
succeeded: the input account with its breach list replaced by the merge of
the existing record's list (if any) with the breach name. -/
def mergeAcc (d : Key → Option Account) (breachName : String)
    (a : Account) : Account :=
  match d (accountKey a) with
  | some ex =>
      { a with Breaches :=
          if contains ex.Breaches breachName then ex.Breaches
          else ex.Breaches ++ [breachName] }
  | none => { a with Breaches := [breachName] }

/-- Sequentially writing a list of records into the table contents (the
effect of the PutItem loop when every write succeeds). -/
def writeList : List Account → (Key → Option Account) → Key → Option Account
  | [], d => d
  | a :: rest, d => writeList rest (upd d (accountKey a) a)

/-- The last record in a list whose key is `k`, if any (the record that
survives after sequentially writing the whole list). -/
def lastWith : List Account → Key → Option Account
  | [], _ => none
  | a :: rest, k =>
      match lastWith rest k with
      | some r => some r
      | none => if accountKey a = k then some a else none

/-- One domain label as worded by the spec (§4.1): 1–63 characters,
alphanumeric with optional internal hyphens, no leading or trailing
hyphen.  This definition follows the spec's words, to be compared with
`labelMatch`, which embeds the source regex. -/
def specLabel (lab : List Char) : Prop :=
  1 ≤ lab.length ∧ lab.length ≤ 63 ∧
  (∀ c ∈ lab, c.isAlphanum = true ∨ c = '-') ∧
  (∀ c, lab.head? = some c → c.isAlphanum = true) ∧
  (∀ c, lab.getLast? = some c → c.isAlphanum = true)

/-- The conservative email grammar as worded by the spec (§4.1): a
non-empty local part over the allowed character class, one `@`, and a
domain of one or more dot-separated labels.  This definition follows the
spec's words, to be compared with the embedded regex matcher. -/
def specEmailGrammar (s : String) : Prop :=
  ∃ (lp : List Char) (labels : List (List Char)),
    s.toList = lp ++ '@' :: joinSep '.' labels ∧
    lp ≠ [] ∧ (∀ c ∈ lp, isLocalChar c = true) ∧
    labels ≠ [] ∧ (∀ lab ∈ labels, specLabel lab)

/-- A well-formed persisted record: discriminator `"Account"`, display
string `alias@domain` consistent with the two keys, and a duplicate-free
breach list. -/
def WellFormedAccount (a : Account) : Prop :=
  a.«Type» = "Account" ∧ a.Breaches.Nodup ∧
  ∃ al dom : String,
    a.PK = "EMAIL#" ++ dom ∧ a.SK = "EMAIL#" ++ al ∧
    a.Account = al ++ "@" ++ dom

/-- Every record present in the table contents is well-formed. -/
def WellFormedStore (d : Key → Option Account) : Prop :=
  ∀ k a, d k = some a → WellFormedAccount a

/-! ### Lemmas about the split/join pair used to embed the regex -/

theorem splitOnChar_ne_nil (c : Char) (l : List Char) :
    splitOnChar c l ≠ [] := by
  cases l with
  | nil => simp [splitOnChar]
  | cons x xs =>
      simp only [splitOnChar]
      split
      · simp
      · split <;> simp

theorem splitOnChar_exists_cons (c : Char) (l : List Char) :
    ∃ h t, splitOnChar c l = h :: t := by
  cases hs : splitOnChar c l with
  | nil => exact absurd hs (splitOnChar_ne_nil c l)
  | cons h t => exact ⟨h, t, rfl⟩

theorem joinSep_splitOnChar (c : Char) (l : List Char) :
    joinSep c (splitOnChar c l) = l := by
  induction l with
  | nil => rfl
  | cons x xs ih =>
      obtain ⟨h, t, hr⟩ := splitOnChar_exists_cons c xs
      by_cases hx : x = c
      · subst hx
        simp only [splitOnChar, if_pos rfl, hr, joinSep]
        rw [← hr, ih]
        rfl
      · simp only [splitOnChar, if_neg hx, hr]
        cases t with
        | nil =>
            simp only [joinSep]
            rw [hr] at ih
            simp only [joinSep] at ih
            rw [ih]
        | cons t0 t1 =>
            simp only [joinSep]
            rw [hr] at ih
            simp only [joinSep] at ih
            rw [List.cons_append, ih]

theorem splitOnChar_of_not_mem {c : Char} {l : List Char} (h : c ∉ l) :
    splitOnChar c l = [l] := by
  induction l with
  | nil => rfl
  | cons x xs ih =>
      have hx : x ≠ c := fun hxc => h (hxc ▸ List.mem_cons_self x xs)
      have hxs : c ∉ xs := fun hc => h (List.mem_cons_of_mem x hc)
      simp only [splitOnChar, if_neg hx, ih hxs]

theorem splitOnChar_append {c : Char} {a : List Char} (b : List Char)
    (h : c ∉ a) : splitOnChar c (a ++ c :: b) = a :: splitOnChar c b := by
  induction a with
  | nil => simp [splitOnChar]
  | cons x a2 ih =>
      have hx : x ≠ c := fun hxc => h (hxc ▸ List.mem_cons_self x a2)
      have ha2 : c ∉ a2 := fun hc => h (List.mem_cons_of_mem x hc)
      simp only [List.cons_append, splitOnChar, if_neg hx, List.append_eq,
        ih ha2]

theorem length_splitOnChar (c : Char) (l : List Char) :
    (splitOnChar c l).length = l.count c + 1 := by
  induction l with
  | nil => simp [splitOnChar]
  | cons x xs ih =>
      obtain ⟨h, t, hr⟩ := splitOnChar_exists_cons c xs
      by_cases hx : x = c
      · subst hx
        simp [splitOnChar, ih]
      · simp only [splitOnChar, if_neg hx, hr]
        rw [hr] at ih
        simp only [List.length_cons] at ih ⊢
        rw [List.count_cons_of_ne (Ne.symm hx) xs]
        exact ih

theorem mem_joinSep {x c : Char} :
    ∀ L : List (List Char), x ∈ joinSep c L → x = c ∨ ∃ lab ∈ L, x ∈ lab
  | [], h => by simp [joinSep] at h
  | [y], h => by
      simp only [joinSep] at h
      exact Or.inr ⟨y, List.mem_cons_self y [], h⟩
  | y :: z :: rest, h => by
      simp only [joinSep, List.mem_append, List.mem_cons] at h
      rcases h with hy | hc | hrest
      · exact Or.inr ⟨y, List.mem_cons_self y _, hy⟩
      · exact Or.inl hc
      · rcases mem_joinSep (z :: rest) hrest with hc | ⟨lab, hlab, hxl⟩
        · exact Or.inl hc
        · exact Or.inr ⟨lab, List.mem_cons_of_mem y hlab, hxl⟩

theorem splitOnChar_joinSep {c : Char} :
    ∀ L : List (List Char), L ≠ [] → (∀ lab ∈ L, c ∉ lab) →
      splitOnChar c (joinSep c L) = L
  | [], h, _ => absurd rfl h
  | [y], _, hc => by
      simp only [joinSep]
      exact splitOnChar_of_not_mem (hc y (List.mem_cons_self y []))
  | y :: z :: rest, _, hc => by
      simp only [joinSep]
      rw [splitOnChar_append _ (hc y (List.mem_cons_self y _))]
      rw [splitOnChar_joinSep (z :: rest) (List.cons_ne_nil z rest)
        (fun lab hlab => hc lab (List.mem_cons_of_mem y hlab))]

/-! ### The embedded regex against the spec's wording of the grammar -/

theorem labelMatch_iff (lab : List Char) :
    labelMatch lab = true ↔ specLabel lab := by
  cases hh : lab.head? with
  | none =>
      have : lab = [] := List.head?_eq_none_iff.mp hh
      subst this
      simp [labelMatch, specLabel]
  | some a =>
      cases hg : lab.getLast? with
      | none =>
          have : lab = [] := List.getLast?_eq_none_iff.mp hg
          subst this
          simp at hh
      | some b =>
          have hne : lab ≠ [] := by
            intro h
            subst h
            simp at hh
          simp only [labelMatch, hh, hg]
          constructor
          · intro h
            simp only [Bool.and_eq_true, List.all_eq_true,
              decide_eq_true_eq] at h
            obtain ⟨⟨⟨ha, hb⟩, hall⟩, hlen⟩ := h
            refine ⟨?_, hlen, ?_, ?_, ?_⟩
            · exact Nat.succ_le_of_lt (List.length_pos.mpr hne)
            · intro ch hch
              have h2 := hall ch hch
              simp only [isLabelChar, Bool.or_eq_true, beq_iff_eq] at h2
              exact h2
            · intro ch hch
              rw [hh] at hch
              injection hch with hch
              exact hch ▸ ha
            · intro ch hch
              rw [hg] at hch
              injection hch with hch
              exact hch ▸ hb
          · rintro ⟨h1, h2, h3, h4, h5⟩
            simp only [Bool.and_eq_true, List.all_eq_true, decide_eq_true_eq]
            refine ⟨⟨⟨h4 a hh, h5 b hg⟩, ?_⟩, h2⟩
            intro ch hch
            rcases h3 ch hch with h | h <;>
              simp [isLabelChar, h]

theorem emailRegexMatch_iff (s : String) :
    emailRegexMatch s.toList = true ↔ specEmailGrammar s := by
  constructor
  · intro hm
    simp only [emailRegexMatch] at hm
    rcases hp : splitOnChar '@' s.toList with _ | ⟨lp, _ | ⟨dom, _ | ⟨e3, rest⟩⟩⟩ <;>
      rw [hp] at hm
    · simp at hm
    · simp at hm
    · simp only [Bool.and_eq_true, Bool.not_eq_true', List.isEmpty_eq_false,
        List.all_eq_true] at hm
      obtain ⟨⟨hne, hlocal⟩, hdm⟩ := hm
      have hs : s.toList = lp ++ '@' :: dom := by
        have hj := joinSep_splitOnChar '@' s.toList
        rw [hp] at hj
        simp only [joinSep] at hj
        exact hj.symm
      have hdom : dom = joinSep '.' (splitOnChar '.' dom) :=
        (joinSep_splitOnChar '.' dom).symm
      refine ⟨lp, splitOnChar '.' dom, ?_, hne, hlocal,
        splitOnChar_ne_nil _ _, ?_⟩
      · rw [hs, ← hdom]
      · intro lab hlab
        rw [domainMatch] at hdm
        exact (labelMatch_iff lab).mp ((List.all_eq_true.mp hdm) lab hlab)
    · simp at hm
  · rintro ⟨lp, labels, hs, hne, hlocal, hlne, hlabs⟩
    have hat_lp : '@' ∉ lp := by
      intro hmem
      exact absurd (hlocal _ hmem) (by decide)
    have hdotlab : ∀ lab ∈ labels, '.' ∉ lab := by
      intro lab hlab hmem
      rcases (hlabs lab hlab).2.2.1 _ hmem with h | h
      · exact absurd h (by decide)
      · exact absurd h (by decide)
    have hat_dom : '@' ∉ joinSep '.' labels := by
      intro hmem
      rcases mem_joinSep labels hmem with h | ⟨lab, hlab, hmem2⟩
      · exact absurd h (by decide)
      · rcases (hlabs lab hlab).2.2.1 _ hmem2 with h | h
        · exact absurd h (by decide)
        · exact absurd h (by decide)
    have hsplit : splitOnChar '@' s.toList = [lp, joinSep '.' labels] := by
      rw [hs, splitOnChar_append _ hat_lp, splitOnChar_of_not_mem hat_dom]
    simp only [emailRegexMatch]
    rw [hsplit]
    simp only [Bool.and_eq_true, Bool.not_eq_true', List.isEmpty_eq_false,
      List.all_eq_true]
    refine ⟨⟨hne, hlocal⟩, ?_⟩
    rw [domainMatch, splitOnChar_joinSep labels hlne hdotlab]
    exact List.all_eq_true.mpr
      (fun lab hlab => (labelMatch_iff lab).mpr (hlabs lab hlab))

theorem NewEmail_err_iff (s : String) :
    (NewEmail s).2 = none ↔ emailRegexMatch s.toList = true := by
  unfold NewEmail
  split
  · rename_i hcond
    simp only [hcond, iff_true]
  · rename_i hcond
    exact iff_of_false (by simp) hcond

theorem NewEmail_split (s : String) (h : (NewEmail s).2 = none) :
    s.toList =
      (NewEmail s).1.Alias.toList ++ '@' :: (NewEmail s).1.Domain.toList := by
  have hm : emailRegexMatch s.toList = true := (NewEmail_err_iff s).mp h
  have hm2 := hm
  simp only [emailRegexMatch] at hm2
  rcases hp : splitOnChar '@' s.toList with _ | ⟨lp, _ | ⟨dom, _ | ⟨e3, rest⟩⟩⟩ <;>
    rw [hp] at hm2
  · simp at hm2
  · simp at hm2
  · have h1 : NewEmail s = ({ Domain := dom.asString, Alias := lp.asString },
        none) := by
      unfold NewEmail
      rw [if_pos hm, hp]
      rfl
    have hs : s.toList = lp ++ '@' :: dom := by
      have hj := joinSep_splitOnChar '@' s.toList
      rw [hp] at hj
      simp only [joinSep] at hj
      exact hj.symm
    rw [hs, h1]
    rfl
  · simp at hm2

theorem NewEmail_multi_at (s : String) (h : 2 ≤ s.toList.count '@') :
    (NewEmail s).2.isSome = true := by
  have hm : ¬ emailRegexMatch s.toList = true := by
    intro hm
    simp only [emailRegexMatch] at hm
    have hlen := length_splitOnChar '@' s.toList
    rcases hp : splitOnChar '@' s.toList with _ | ⟨lp, _ | ⟨dom, _ | ⟨e3, rest⟩⟩⟩ <;>
      rw [hp] at hm
    · simp at hm
    · simp at hm
    · rw [hp] at hlen
      simp only [List.length_cons, List.length_nil] at hlen
      omega
    · simp at hm
  unfold NewEmail
  rw [if_neg hm]
  rfl

/-! ### Lemmas about the embedded pipeline -/

theorem contains_iff (l : List String) (s : String) :
    contains l s = true ↔ s ∈ l := by
  induction l with
  | nil => simp [contains]
  | cons el rest ih =>
      by_cases h : el = s
      · subst h
        simp [contains]
      · simp only [contains, if_neg h, ih, List.mem_cons]
        constructor
        · exact Or.inr
        · rintro (h2 | h2)
          · exact absurd h2.symm h
          · exact h2

theorem mapToAccountGo_eq (raws : List String) :
    ∀ accs, mapToAccountGo raws accs none =
      (accs ++ mappedAccounts raws, none) := by
  induction raws with
  | nil =>
      intro accs
      simp [mapToAccountGo, mappedAccounts]
  | cons r rest ih =>
      intro accs
      simp only [mapToAccountGo, Option.isSome_none, Bool.false_eq_true,
        if_false, mappedAccounts, List.map_cons]
      rw [ih]
      simp [mappedAccounts]

theorem mapToAccount_eq (raws : List String) :
    mapToAccount raws = Except.ok (mappedAccounts raws) := by
  simp [mapToAccount, mapToAccountGo_eq raws []]

theorem setAccountBreachesGo_ok (st : Store) (bn : String) :
    ∀ (accounts accs : List Account) (tr : List Event),
      (∀ a ∈ accounts, st.readOk (accountKey a) = true) →
      setAccountBreachesGo st bn accounts accs tr =
        (accs ++ accounts.map (mergeAcc st.data bn),
         tr ++ accounts.map (fun a => Event.read (accountKey a)), none) := by
  intro accounts
  induction accounts with
  | nil =>
      intro accs tr _
      simp [setAccountBreachesGo]
  | cons a rest ih =>
      intro accs tr h
      have ha : st.readOk (accountKey a) = true := h a (List.mem_cons_self a rest)
      have hrest : ∀ b ∈ rest, st.readOk (accountKey b) = true :=
        fun b hb => h b (List.mem_cons_of_mem a hb)
      simp only [setAccountBreachesGo]
      split
      · split
        · rename_i ex hd
          rw [ih _ _ hrest]
          simp [mergeAcc, hd, List.append_assoc]
        · rename_i hd
          rw [ih _ _ hrest]
          simp [mergeAcc, hd, List.append_assoc]
      · rename_i hro
        exact absurd ha hro

theorem setAccountBreachesGo_ok_inv (st : Store) (bn : String) :
    ∀ (accounts accs : List Account) (tr : List Event) accs2 tr2,
      setAccountBreachesGo st bn accounts accs tr = (accs2, tr2, none) →
      accs2 = accs ++ accounts.map (mergeAcc st.data bn) := by
  intro accounts
  induction accounts with
  | nil =>
      intro accs tr accs2 tr2 h
      simp only [setAccountBreachesGo, Prod.mk.injEq] at h
      simp [← h.1]
  | cons a rest ih =>
      intro accs tr accs2 tr2 h
      simp only [setAccountBreachesGo] at h
      split at h
      · split at h
        · rename_i ex hd
          have := ih _ _ _ _ h
          simp [this, mergeAcc, hd, List.append_assoc]
        · rename_i hd
          have := ih _ _ _ _ h
          simp [this, mergeAcc, hd, List.append_assoc]
      · simp at h

theorem setAccountBreachesGo_fail (st : Store) (bn : String) :
    ∀ (pre : List Account) (bad : Account) (post accs : List Account)
      (tr : List Event),
      (∀ a ∈ pre, st.readOk (accountKey a) = true) →
      st.readOk (accountKey bad) = false →
      setAccountBreachesGo st bn (pre ++ bad :: post) accs tr =
        (accs ++ pre.map (mergeAcc st.data bn),
         tr ++ (pre ++ [bad]).map (fun a => Event.read (accountKey a)),
         some HErr.storeRead) := by
  intro pre
  induction pre with
  | nil =>
      intro bad post accs tr _ hbad
      simp [setAccountBreachesGo, hbad]
  | cons p rest ih =>
      intro bad post accs tr hpre hbad
      have hp : st.readOk (accountKey p) = true :=
        hpre p (List.mem_cons_self p rest)
      have hrest : ∀ a ∈ rest, st.readOk (accountKey a) = true :=
        fun a ha => hpre a (List.mem_cons_of_mem p ha)
      simp only [List.cons_append, setAccountBreachesGo, List.append_eq]
      split
      · split
        · rename_i ex hd
          rw [ih bad post _ _ hrest hbad]
          simp [mergeAcc, hd, List.append_assoc]
        · rename_i hd
          rw [ih bad post _ _ hrest hbad]
          simp [mergeAcc, hd, List.append_assoc]
      · rename_i hro
        exact absurd hp hro

theorem setAccountBreachesGo_trace (st : Store) (bn : String) :
    ∀ (accounts accs : List Account) (tr : List Event),
      (∀ e ∈ tr, e.isRead = true) →
      ∀ e ∈ (setAccountBreachesGo st bn accounts accs tr).2.1,
        e.isRead = true := by
  intro accounts
  induction accounts with
  | nil =>
      intro accs tr h
      simpa [setAccountBreachesGo] using h
  | cons a rest ih =>
      intro accs tr h
      have htr2 : ∀ e ∈ tr ++ [Event.read (accountKey a)], e.isRead = true := by
        intro e he
        rcases List.mem_append.mp he with he | he
        · exact h e he
        · simp only [List.mem_singleton] at he
          subst he
          rfl
      simp only [setAccountBreachesGo]
      split
      · split
        · rename_i ex hd
          exact ih _ _ htr2
        · rename_i hd
          exact ih _ _ htr2
      · simpa using htr2

theorem putAll_ok :
    ∀ (accounts : List Account) (st : Store),
      (∀ a ∈ accounts, st.writeOk (accountKey a) = true) →
      putAll st accounts =
        ({ st with data := writeList accounts st.data },
         accounts.map (fun a => Event.write (accountKey a) a), none) := by
  intro accounts
  induction accounts with
  | nil =>
      intro st _
      simp [putAll, writeList]
  | cons a rest ih =>
      intro st h
      have ha : st.writeOk (accountKey a) = true := h a (List.mem_cons_self a rest)
      have hrest : ∀ b ∈ rest,
          (Store.mk (upd st.data (accountKey a) a) st.readOk st.writeOk).writeOk
            (accountKey b) = true :=
        fun b hb => h b (List.mem_cons_of_mem a hb)
      simp only [putAll, ha, if_true]
      rw [ih _ hrest]
      simp [writeList]

theorem putAll_trace :
    ∀ (accounts : List Account) (st : Store),
      ∀ e ∈ (putAll st accounts).2.1, e.isWrite = true := by
  intro accounts
  induction accounts with
  | nil =>
      intro st e he
      simp [putAll] at he
  | cons a rest ih =>
      intro st e he
      simp only [putAll] at he
      split at he
      · simp only [List.mem_cons] at he
        rcases he with he | he
        · subst he
          rfl
        · exact ih _ _ he
      · simp only [List.mem_singleton] at he
        subst he
        rfl

theorem putAll_err_ne_storeRead :
    ∀ (accounts : List Account) (st : Store),
      (putAll st accounts).2.2 ≠ some HErr.storeRead := by
  intro accounts
  induction accounts with
  | nil =>
      intro st
      simp [putAll]
  | cons a rest ih =>
      intro st
      simp only [putAll]
      split
      · exact ih _
      · simp

theorem writeList_lookup :
    ∀ (L : List Account) (d : Key → Option Account) (k : Key),
      writeList L d k =
        match lastWith L k with
        | some r => some r
        | none => d k := by
  intro L
  induction L with
  | nil =>
      intro d k
      simp [writeList, lastWith]
  | cons a rest ih =>
      intro d k
      simp only [writeList, lastWith]
      rw [ih]
      cases hl : lastWith rest k with
      | some r => simp
      | none =>
          simp only [upd]
          by_cases hk : accountKey a = k
          · simp [hk]
          · have hk2 : ¬ k = accountKey a := fun h => hk h.symm
            simp [hk, hk2]

theorem writeList_idem (L : List Account) (d : Key → Option Account) :
    writeList L (writeList L d) = writeList L d := by
  funext k
  rw [writeList_lookup, writeList_lookup]
  cases lastWith L k <;> simp

theorem lastWith_mem :
    ∀ (L : List Account) (k : Key) (r : Account),
      lastWith L k = some r → r ∈ L ∧ accountKey r = k := by
  intro L
  induction L with
  | nil =>
      intro k r h
      simp [lastWith] at h
  | cons a rest ih =>
      intro k r h
      simp only [lastWith] at h
      cases hl : lastWith rest k with
      | some r2 =>
          rw [hl] at h
          injection h with h
          obtain ⟨hm, hk⟩ := ih k r2 hl
          rw [← h]
          exact ⟨List.mem_cons_of_mem a hm, hk⟩
      | none =>
          rw [hl] at h
          by_cases hk : accountKey a = k
          · rw [if_pos hk] at h
            injection h with h
            subst h
            exact ⟨List.mem_cons_self a rest, hk⟩
          · rw [if_neg hk] at h
            exact absurd h (by simp)

theorem lastWith_isSome_of_mem :
    ∀ (L : List Account) (a : Account), a ∈ L →
      ∃ r, lastWith L (accountKey a) = some r := by
  intro L
  induction L with
  | nil =>
      intro a ha
      simp at ha
  | cons b rest ih =>
      intro a ha
      simp only [lastWith]
      cases hl : lastWith rest (accountKey a) with
      | some r => exact ⟨r, rfl⟩
      | none =>
          rcases List.mem_cons.mp ha with ha | ha
          · subst ha
            simp
          · obtain ⟨r, hr⟩ := ih a ha
            rw [hr] at hl
            exact absurd hl (by simp)

theorem accountKey_mergeAcc (d : Key → Option Account) (bn : String)
    (a : Account) : accountKey (mergeAcc d bn a) = accountKey a := by
  rw [mergeAcc]
  cases d (accountKey a) <;> rfl

theorem mem_mergeAcc_breaches (d : Key → Option Account) (bn : String)
    (a : Account) : bn ∈ (mergeAcc d bn a).Breaches := by
  rw [mergeAcc]
  cases hd : d (accountKey a) with
  | some ex =>
      by_cases hc : contains ex.Breaches bn = true
      · simp only [hc, if_true]
        exact (contains_iff _ _).mp hc
      · simp only [hc, if_false]
        simp
  | none => simp

theorem mergeAcc_breaches_stable (d : Key → Option Account) (bn : String)
    (a m : Account) (h : m = mergeAcc d bn a) :
    { a with Breaches := m.Breaches } = m := by
  subst h
  rw [mergeAcc]
  cases d (accountKey a) with
  | some ex =>
      by_cases hc : contains ex.Breaches bn = true
      · simp [hc]
      · simp [hc]
  | none => rfl

theorem string_append_cancel_left {p a b : String} (h : p ++ a = p ++ b) :
    a = b := by
  have h2 := congrArg String.data h
  simp only [String.data_append] at h2
  have h3 := List.append_cancel_left h2
  exact String.ext h3

theorem mkAccount_key_inj (e1 e2 : Email) :
    accountKey (mkAccount e1) = accountKey (mkAccount e2) →
    mkAccount e1 = mkAccount e2 := by
  intro h
  simp only [accountKey, mkAccount, Email.PartitionKey, Email.SortKey,
    Prod.mk.injEq] at h
  obtain ⟨hd, ha⟩ := h
  have hd2 : e1.Domain = e2.Domain := string_append_cancel_left hd
  have ha2 : e1.Alias = e2.Alias := string_append_cancel_left ha
  have he : e1 = e2 := by
    cases e1 with
    | mk d1 a1 =>
        cases e2 with
        | mk d2 a2 =>
            simp only at hd2 ha2
            simp [hd2, ha2]
  rw [he]

theorem putAll_preserves_wf :
    ∀ (accounts : List Account) (st : Store),
      WellFormedStore st.data → (∀ a ∈ accounts, WellFormedAccount a) →
      WellFormedStore (putAll st accounts).1.data := by
  intro accounts
  induction accounts with
  | nil =>
      intro st hst _
      simpa [putAll] using hst
  | cons a rest ih =>
      intro st hst hall
      simp only [putAll]
      split
      · apply ih
        · intro k b hb
          simp only [upd] at hb
          by_cases hk : k = accountKey a
          · rw [if_pos hk] at hb
            injection hb with hb
            rw [← hb]
            exact hall a (List.mem_cons_self a rest)
          · rw [if_neg hk] at hb
            exact hst k b hb
        · exact fun b hb => hall b (List.mem_cons_of_mem a hb)
      · exact hst

theorem mergeAcc_wf (d : Key → Option Account) (bn : String) (e : Email)
    (hst : WellFormedStore d) :
    WellFormedAccount (mergeAcc d bn (mkAccount e)) := by
  rw [mergeAcc]
  split
  · rename_i ex hd
    have hex := hst _ _ hd
    refine ⟨rfl, ?_, e.Alias, e.Domain, rfl, rfl, rfl⟩
    by_cases hc : contains ex.Breaches bn = true
    · simp only [hc, if_true]
      exact hex.2.1
    · simp only [hc, Bool.false_eq_true, if_false]
      rw [List.nodup_append]
      refine ⟨hex.2.1, by simp, ?_⟩
      intro x hx hx2
      simp only [List.mem_singleton] at hx2
      subst hx2
      exact hc ((contains_iff _ _).mpr hx)
  · exact ⟨rfl, by simp, e.Alias, e.Domain, rfl, rfl, rfl⟩

theorem setAccountBreaches_ok (st : Store) (bn : String)
    (accounts : List Account)
    (h : ∀ a ∈ accounts, st.readOk (accountKey a) = true) :
    setAccountBreaches st accounts bn =
      (accounts.map (fun a => Event.read (accountKey a)),
       Except.ok (accounts.map (mergeAcc st.data bn))) := by
  rw [setAccountBreaches, setAccountBreachesGo_ok st bn accounts [] [] h]
  simp

theorem setAccountBreaches_ok_inv (st : Store) (bn : String)
    (accounts : List Account) (tr : List Event) (accs2 : List Account)
    (h : setAccountBreaches st accounts bn = (tr, Except.ok accs2)) :
    accs2 = accounts.map (mergeAcc st.data bn) := by
  rw [setAccountBreaches] at h
  rcases hg : setAccountBreachesGo st bn accounts [] [] with ⟨accs, tr2, err⟩
  rw [hg] at h
  cases err with
  | none =>
      simp only [Prod.mk.injEq] at h
      have hacc := setAccountBreachesGo_ok_inv st bn accounts [] [] accs tr2 hg
      simp only [List.nil_append] at hacc
      injection h.2 with h2
      rw [← h2]
      exact hacc
  | some e =>
      simp at h

theorem setAccountBreaches_trace_reads (st : Store) (bn : String)
    (accounts : List Account) :
    ∀ e ∈ (setAccountBreaches st accounts bn).1, e.isRead = true := by
  rw [setAccountBreaches]
  rcases hg : setAccountBreachesGo st bn accounts [] [] with ⟨accs, tr2, err⟩
  have htr := setAccountBreachesGo_trace st bn accounts [] [] (by simp)
  rw [hg] at htr
  cases err <;> simpa using htr

theorem Handler_mkOkStore (d : Key → Option Account) (ev : AddAccountEvent) :
    Handler (mkOkStore d) ev =
      HandlerResult.mk
        (Store.mk
          (writeList ((mappedAccounts ev.Accounts).map
            (mergeAcc d ev.PathParameters.BreachName)) d)
          (fun _ => true) (fun _ => true))
        ((mappedAccounts ev.Accounts).map
            (fun a => Event.read (accountKey a)) ++
          ((mappedAccounts ev.Accounts).map
            (mergeAcc d ev.PathParameters.BreachName)).map
            (fun a => Event.write (accountKey a) a))
        (Response.mk 200
          (jsonMessageBody ("Successfully added/updated " ++
            toString (mappedAccounts ev.Accounts).length ++
            " accounts to the " ++ ev.PathParameters.BreachName ++ " breach."))
          false [("Content-Type", "application/json")])
        none := by
  simp only [Handler, mapToAccount_eq]
  rw [setAccountBreaches_ok _ _ _ (fun a _ => rfl)]
  simp only [marshalMapToAttributeValues]
  rw [putAll_ok _ _ (fun a _ => rfl)]
  simp [mkOkStore]

/-! ### Claim theorems -/

/-- C7: for every parsed email the derived store keys are
`partitionKey = "EMAIL#" ++ domain` and `sortKey = "EMAIL#" ++ alias`; in
particular `"bob@example.org"` parses successfully with partition key
`"EMAIL#example.org"` and sort key `"EMAIL#bob"`. -/
theorem email_key_derivation (e : Email) :
    e.PartitionKey = "EMAIL#" ++ e.Domain ∧ e.SortKey = "EMAIL#" ++ e.Alias ∧
    (NewEmail "bob@example.org").2 = none ∧
    (NewEmail "bob@example.org").1.PartitionKey = "EMAIL#example.org" ∧
    (NewEmail "bob@example.org").1.SortKey = "EMAIL#bob" :=
  ⟨rfl, rfl, by decide, by decide, by decide⟩

/-- C9: on the empty batch the Handler performs no store reads and no
writes, leaves the table contents unchanged, and returns success (HTTP
200) whose body reports 0 accounts, for every breach name and store. -/
theorem Handler_empty_batch (st : Store) (bn : String) :
    (Handler st { Accounts := [], PathParameters := { BreachName := bn } }).trace = [] ∧
    (Handler st { Accounts := [], PathParameters := { BreachName := bn } }).err = none ∧
    (Handler st { Accounts := [], PathParameters := { BreachName := bn } }).store.data = st.data ∧
    (Handler st { Accounts := [], PathParameters := { BreachName := bn } }).resp.StatusCode = 200 ∧
    (Handler st { Accounts := [], PathParameters := { BreachName := bn } }).resp.Body =
      jsonMessageBody ("Successfully added/updated 0 accounts to the " ++ bn ++ " breach.") :=
  ⟨rfl, rfl, rfl, rfl, rfl⟩

/-- C1 (bug evaluation): a batch with an invalid email is *not* aborted
with an invalid-email error.  Because `mapToAccount` tests the stale `err`
variable instead of `emailErr`, the Handler returns success, performs one
read and one write per batch entry (two each here), and even persists a
bogus record under the key `("EMAIL#", "EMAIL#")` derived from the zero
`Email`. -/
theorem invalidEmail_batch_still_processed :
    (Handler (mkOkStore (fun _ => none))
      { Accounts := ["alice@example.com", "not-an-email"],
        PathParameters := { BreachName := "BigLeak" } }).err = none ∧
    (Handler (mkOkStore (fun _ => none))
      { Accounts := ["alice@example.com", "not-an-email"],
        PathParameters := { BreachName := "BigLeak" } }).resp.StatusCode = 200 ∧
    ((Handler (mkOkStore (fun _ => none))
      { Accounts := ["alice@example.com", "not-an-email"],
        PathParameters := { BreachName := "BigLeak" } }).trace.filter Event.isRead).length = 2 ∧
    ((Handler (mkOkStore (fun _ => none))
      { Accounts := ["alice@example.com", "not-an-email"],
        PathParameters := { BreachName := "BigLeak" } }).trace.filter Event.isWrite).length = 2 ∧
    (Handler (mkOkStore (fun _ => none))
      { Accounts := ["alice@example.com", "not-an-email"],
        PathParameters := { BreachName := "BigLeak" } }).store.data ("EMAIL#", "EMAIL#") =
      some { PK := "EMAIL#", SK := "EMAIL#", «Type» := "Account",
             Account := "@", Breaches := ["BigLeak"] } :=
  ⟨rfl, rfl, by decide, by decide, by decide⟩

/-- C3: the breach-set merge of `setAccountBreaches`: no existing record
gives the singleton `[breachName]`; an existing record already containing
the breach name is returned unchanged; otherwise the breach name is
appended, which is exactly the set union since it was not an element. -/
theorem setAccountBreaches_merge (d : Key → Option Account)
    (ro wo : Key → Bool) (a : Account) (bn : String)
    (h : ro (accountKey a) = true) :
    (d (accountKey a) = none →
      (setAccountBreaches (Store.mk d ro wo) [a] bn).2 =
        Except.ok [{ a with Breaches := [bn] }]) ∧
    (∀ ex, d (accountKey a) = some ex → bn ∈ ex.Breaches →
      (setAccountBreaches (Store.mk d ro wo) [a] bn).2 =
        Except.ok [{ a with Breaches := ex.Breaches }]) ∧
    (∀ ex, d (accountKey a) = some ex → bn ∉ ex.Breaches →
      (setAccountBreaches (Store.mk d ro wo) [a] bn).2 =
        Except.ok [{ a with Breaches := ex.Breaches ++ [bn] }] ∧
      ∀ x, x ∈ ex.Breaches ++ [bn] ↔ x ∈ ex.Breaches ∨ x = bn) := by
  have hro : ∀ b ∈ [a], (Store.mk d ro wo).readOk (accountKey b) = true := by
    intro b hb
    simp only [List.mem_singleton] at hb
    subst hb
    exact h
  refine ⟨?_, ?_, ?_⟩
  · intro hnone
    rw [setAccountBreaches_ok _ _ _ hro]
    simp [mergeAcc, hnone]
  · intro ex hex hmem
    rw [setAccountBreaches_ok _ _ _ hro]
    simp [mergeAcc, hex, (contains_iff _ _).mpr hmem]
  · intro ex hex hmem
    have hc : contains ex.Breaches bn = false :=
      Bool.eq_false_iff.mpr (fun hcc => hmem ((contains_iff _ _).mp hcc))
    constructor
    · rw [setAccountBreaches_ok _ _ _ hro]
      simp [mergeAcc, hex, hc]
    · intro x
      simp [List.mem_append]

/-- Witness for C3: on an empty store, adding breach "B" for one concrete
account produces the singleton breach list. -/
theorem setAccountBreaches_merge_witness :
    (setAccountBreaches
        (Store.mk (fun _ => none) (fun _ => true) (fun _ => true))
        [mkAccount { Domain := "e.com", Alias := "al" }] "B").2 =
      Except.ok [{ mkAccount { Domain := "e.com", Alias := "al" } with
        Breaches := ["B"] }] :=
  (setAccountBreaches_merge (fun _ => none) (fun _ => true) (fun _ => true)
    (mkAccount { Domain := "e.com", Alias := "al" }) "B" rfl).1 rfl

theorem mappedAccounts_exists_email (raws : List String) (a : Account)
    (ha : a ∈ mappedAccounts raws) : ∃ e : Email, a = mkAccount e := by
  rw [mappedAccounts] at ha
  obtain ⟨r, _, hr⟩ := List.mem_map.mp ha
  exact ⟨(NewEmail r).1, hr.symm⟩

theorem writeList_mergeAcc_lookup (d : Key → Option Account) (bn : String)
    (raws : List String) (a : Account) (ha : a ∈ mappedAccounts raws) :
    writeList ((mappedAccounts raws).map (mergeAcc d bn)) d (accountKey a) =
      some (mergeAcc d bn a) := by
  have hmem : mergeAcc d bn a ∈ (mappedAccounts raws).map (mergeAcc d bn) :=
    List.mem_map.mpr ⟨a, ha, rfl⟩
  obtain ⟨r, hr⟩ :=
    lastWith_isSome_of_mem ((mappedAccounts raws).map (mergeAcc d bn))
      (mergeAcc d bn a) hmem
  rw [accountKey_mergeAcc] at hr
  obtain ⟨hrmem, hrkey⟩ :=
    lastWith_mem ((mappedAccounts raws).map (mergeAcc d bn)) (accountKey a) r hr
  obtain ⟨a2, ha2, hra2⟩ := List.mem_map.mp hrmem
  have hkey2 : accountKey a2 = accountKey a := by
    rw [← hra2, accountKey_mergeAcc] at hrkey
    exact hrkey
  have haa2 : a2 = a := by
    obtain ⟨e1, he1⟩ := mappedAccounts_exists_email raws a ha
    obtain ⟨e2, he2⟩ := mappedAccounts_exists_email raws a2 ha2
    rw [he1]
    rw [he1, he2] at hkey2
    rw [he2]
    exact mkAccount_key_inj e2 e1 hkey2
  rw [writeList_lookup, hr, ← hra2, haa2]

theorem mergeAcc_writeList_stable (d : Key → Option Account) (bn : String)
    (raws : List String) (a : Account) (ha : a ∈ mappedAccounts raws) :
    mergeAcc (writeList ((mappedAccounts raws).map (mergeAcc d bn)) d) bn a =
      mergeAcc d bn a := by
  have hlook := writeList_mergeAcc_lookup d bn raws a ha
  rw [mergeAcc, hlook]
  have hc : contains (mergeAcc d bn a).Breaches bn = true :=
    (contains_iff _ _).mpr (mem_mergeAcc_breaches d bn a)
  simp only [hc, if_true]
  exact mergeAcc_breaches_stable d bn a (mergeAcc d bn a) rfl

/-- C4: applying the same `(accounts, breachName)` call twice in sequence
against a fault-free store leaves exactly the table contents of a single
application: the second run finds every breach name already present and
rewrites each record unchanged, so no duplicate is ever added. -/
theorem Handler_idempotent (d : Key → Option Account) (ev : AddAccountEvent) :
    (Handler (mkOkStore ((Handler (mkOkStore d) ev).store.data)) ev).store.data =
      (Handler (mkOkStore d) ev).store.data := by
  rw [Handler_mkOkStore d ev]
  show (Handler (mkOkStore
      (writeList ((mappedAccounts ev.Accounts).map
        (mergeAcc d ev.PathParameters.BreachName)) d)) ev).store.data =
    writeList ((mappedAccounts ev.Accounts).map
      (mergeAcc d ev.PathParameters.BreachName)) d
  rw [Handler_mkOkStore]
  show writeList ((mappedAccounts ev.Accounts).map
      (mergeAcc (writeList ((mappedAccounts ev.Accounts).map
        (mergeAcc d ev.PathParameters.BreachName)) d)
        ev.PathParameters.BreachName))
      (writeList ((mappedAccounts ev.Accounts).map
        (mergeAcc d ev.PathParameters.BreachName)) d) =
    writeList ((mappedAccounts ev.Accounts).map
      (mergeAcc d ev.PathParameters.BreachName)) d
  rw [List.map_congr_left (fun a ha =>
    mergeAcc_writeList_stable d ev.PathParameters.BreachName ev.Accounts a ha)]
  exact writeList_idem _ d

/-- C5: well-formedness (discriminator `"Account"`, `Account` display
string consistent with the keys, duplicate-free breach list) of every
stored record is preserved by every Handler invocation, over any store of
records previously written by this code. -/
theorem Handler_preserves_wellFormed (st : Store) (ev : AddAccountEvent)
    (h : WellFormedStore st.data) :
    WellFormedStore (Handler st ev).store.data := by
  simp only [Handler, mapToAccount_eq]
  rcases hsab : setAccountBreaches st (mappedAccounts ev.Accounts)
      ev.PathParameters.BreachName with ⟨tr, r⟩
  cases r with
  | error e => exact h
  | ok accounts2 =>
      simp only [marshalMapToAttributeValues]
      have hacc : ∀ a ∈ accounts2, WellFormedAccount a := by
        rw [setAccountBreaches_ok_inv st _ _ _ _ hsab]
        intro a ha
        obtain ⟨a0, ha0, haa⟩ := List.mem_map.mp ha
        obtain ⟨e, he⟩ := mappedAccounts_exists_email ev.Accounts a0 ha0
        rw [← haa, he]
        exact mergeAcc_wf st.data ev.PathParameters.BreachName e h
      rcases hput : putAll st accounts2 with ⟨st2, tr2, werr⟩
      have hwf := putAll_preserves_wf accounts2 st h hacc
      rw [hput] at hwf
      cases werr with
      | some e2 => exact hwf
      | none => exact hwf

/-- Witness for C5: a Handler run over the empty (trivially well-formed)
store yields a well-formed store. -/
theorem Handler_preserves_wellFormed_witness :
    WellFormedStore ((Handler (mkOkStore (fun _ => none))
      { Accounts := ["a@b.com"],
        PathParameters := { BreachName := "X" } }).store.data) :=
  Handler_preserves_wellFormed _ _ (fun _ _ h => nomatch h)

/-- C6: `NewEmail` rejects every string outside the conservative grammar
(success is equivalent to the spec's grammar: non-empty local part, single
`@`, dot-separated labels of 1–63 alphanumeric-with-internal-hyphen
characters); in particular `"user@-badlabel-.com"` and every string with
more than one `@` are rejected; and on success the string splits at the
`@` into alias and domain. -/
theorem NewEmail_grammar (s : String) :
    (NewEmail "user@-badlabel-.com").2.isSome = true ∧
    (2 ≤ s.toList.count '@' → (NewEmail s).2.isSome = true) ∧
    ((NewEmail s).2 = none ↔ specEmailGrammar s) ∧
    ((NewEmail s).2 = none →
      s.toList =
        (NewEmail s).1.Alias.toList ++ '@' :: (NewEmail s).1.Domain.toList) :=
  ⟨by decide, NewEmail_multi_at s,
   (NewEmail_err_iff s).trans (emailRegexMatch_iff s), NewEmail_split s⟩

/-- Witness for C6: the double-`@` string `"a@b@c.com"` is rejected, and
`"bob@example.org"` satisfies the spec grammar and splits at its `@`. -/
theorem NewEmail_grammar_witness :
    (NewEmail "a@b@c.com").2.isSome = true ∧
    specEmailGrammar "bob@example.org" ∧
    String.toList "bob@example.org" =
      (NewEmail "bob@example.org").1.Alias.toList ++
        '@' :: (NewEmail "bob@example.org").1.Domain.toList :=
  ⟨(NewEmail_grammar "a@b@c.com").2.1 (by decide),
   (NewEmail_grammar "bob@example.org").2.2.1.mp (by decide),
   (NewEmail_grammar "bob@example.org").2.2.2 (by decide)⟩

/-- C8: whenever the Handler returns no error, the response is HTTP 200
and its JSON body reads "Successfully added/updated N accounts to the B
breach." with N the size of the submitted batch and B the breach name. -/
theorem Handler_success_response (st : Store) (ev : AddAccountEvent)
    (h : (Handler st ev).err = none) :
    (Handler st ev).resp.StatusCode = 200 ∧
    (Handler st ev).resp.Body =
      jsonMessageBody ("Successfully added/updated " ++
        toString ev.Accounts.length ++ " accounts to the " ++
        ev.PathParameters.BreachName ++ " breach.") := by
  simp only [Handler, mapToAccount_eq] at h ⊢
  rcases hsab : setAccountBreaches st (mappedAccounts ev.Accounts)
      ev.PathParameters.BreachName with ⟨tr, r⟩
  rw [hsab] at h
  cases r with
  | error e => simp at h
  | ok accounts2 =>
      simp only [marshalMapToAttributeValues] at h ⊢
      rcases hput : putAll st accounts2 with ⟨st2, tr2, werr⟩
      rw [hput] at h
      cases werr with
      | some e => simp at h
      | none =>
          have hlen : accounts2.length = ev.Accounts.length := by
            rw [setAccountBreaches_ok_inv st _ _ _ _ hsab]
            simp [mappedAccounts]
          refine ⟨rfl, ?_⟩
          show jsonMessageBody _ = jsonMessageBody _
          rw [hlen]

/-- Witness for C8: one account, fault-free empty store: HTTP 200 and the
success body reporting one account. -/
theorem Handler_success_response_witness :
    (Handler (mkOkStore (fun _ => none))
      { Accounts := ["alice@example.com"],
        PathParameters := { BreachName := "BigLeak" } }).resp.StatusCode = 200 ∧
    (Handler (mkOkStore (fun _ => none))
      { Accounts := ["alice@example.com"],
        PathParameters := { BreachName := "BigLeak" } }).resp.Body =
      jsonMessageBody ("Successfully added/updated " ++ toString (1 : Nat) ++
        " accounts to the " ++ "BigLeak" ++ " breach.") :=
  Handler_success_response _ _ (by decide)

/-- C10: in every Handler run the trace is a block of reads followed by a
block of writes (all GetItem calls happen before any PutItem begins), and
when a read fails the call errors with the table contents unchanged and a
trace containing no write at all. -/
theorem reads_before_writes (st : Store) (ev : AddAccountEvent) :
    (∃ rs ws, (Handler st ev).trace = rs ++ ws ∧
      (∀ e ∈ rs, e.isRead = true) ∧ (∀ e ∈ ws, e.isWrite = true)) ∧
    ((Handler st ev).err = some HErr.storeRead →
      (Handler st ev).store.data = st.data ∧
      ∀ e ∈ (Handler st ev).trace, e.isRead = true) := by
  simp only [Handler, mapToAccount_eq]
  rcases hsab : setAccountBreaches st (mappedAccounts ev.Accounts)
      ev.PathParameters.BreachName with ⟨tr, r⟩
  have htr : ∀ e ∈ tr, e.isRead = true := by
    have h2 := setAccountBreaches_trace_reads st ev.PathParameters.BreachName
      (mappedAccounts ev.Accounts)
    rw [hsab] at h2
    exact h2
  cases r with
  | error e =>
      refine ⟨⟨tr, [], by simp, htr, by simp⟩, fun _ => ⟨rfl, htr⟩⟩
  | ok accounts2 =>
      simp only [marshalMapToAttributeValues]
      rcases hput : putAll st accounts2 with ⟨st2, tr2, werr⟩
      have hw : ∀ e ∈ tr2, e.isWrite = true := by
        have h2 := putAll_trace accounts2 st
        rw [hput] at h2
        exact h2
      cases werr with
      | some e2 =>
          refine ⟨⟨tr, tr2, rfl, htr, hw⟩, ?_⟩
          intro hctr
          have hne := putAll_err_ne_storeRead accounts2 st
          rw [hput] at hne
          exact absurd hctr hne
      | none =>
          refine ⟨⟨tr, tr2, rfl, htr, hw⟩, ?_⟩
          intro hctr
          simp at hctr

/-- Witness for C10: a store whose single key fails to read: the trace
splits into reads then writes, and the failing run leaves the data
untouched with a read-only trace. -/
theorem reads_before_writes_witness :
    (∃ rs ws,
      (Handler (Store.mk (fun _ => none) (fun _ => false) (fun _ => true))
        { Accounts := ["c@c.com"],
          PathParameters := { BreachName := "X" } }).trace = rs ++ ws ∧
      (∀ e ∈ rs, e.isRead = true) ∧ (∀ e ∈ ws, e.isWrite = true)) ∧
    ((Handler (Store.mk (fun _ => none) (fun _ => false) (fun _ => true))
        { Accounts := ["c@c.com"],
          PathParameters := { BreachName := "X" } }).store.data =
      (Store.mk (fun _ => none) (fun _ => false) (fun _ => true)).data ∧
     ∀ e ∈ (Handler (Store.mk (fun _ => none) (fun _ => false) (fun _ => true))
        { Accounts := ["c@c.com"],
          PathParameters := { BreachName := "X" } }).trace, e.isRead = true) :=
  ⟨(reads_before_writes _ _).1, (reads_before_writes _ _).2 (by decide)⟩

/-- C2 counterexample: two accounts, where only the second account's
GetItem fails.  The claim says the first account's record "has already
been written"; in fact the call aborts with `storeRead` having performed
no write at all — the trace contains no write event and the first
account's key still holds nothing. -/
theorem readFail_no_prior_writes_cex :
    (Handler (Store.mk (fun _ => none)
        (fun k => k != (("EMAIL#b.com" : String), ("EMAIL#b" : String)))
        (fun _ => true))
      { Accounts := ["a@a.com", "b@b.com"],
        PathParameters := { BreachName := "X" } }).err = some HErr.storeRead ∧
    ((Handler (Store.mk (fun _ => none)
        (fun k => k != (("EMAIL#b.com" : String), ("EMAIL#b" : String)))
        (fun _ => true))
      { Accounts := ["a@a.com", "b@b.com"],
        PathParameters := { BreachName := "X" } }).trace.filter Event.isWrite) = [] ∧
    (Handler (Store.mk (fun _ => none)
        (fun k => k != (("EMAIL#b.com" : String), ("EMAIL#b" : String)))
        (fun _ => true))
      { Accounts := ["a@a.com", "b@b.com"],
        PathParameters := { BreachName := "X" } }).store.data
      ("EMAIL#a.com", "EMAIL#a") = none :=
  ⟨by decide, by decide, by decide⟩

/-- C2 (amended): accounts are read strictly in input order, and when the
GetItem for the i-th account fails the call aborts with `storeRead`; but
since all reads happen before any write, *no* account's record has been
written — the store is unchanged and the trace is exactly the reads of
accounts 0..i in order. -/
theorem readFail_abort_no_writes (d : Key → Option Account)
    (ro wo : Key → Bool) (bn : String) (pre post : List String) (bad : String)
    (hpre : ∀ r ∈ pre, ro (accountKey (mkAccount (NewEmail r).1)) = true)
    (hbad : ro (accountKey (mkAccount (NewEmail bad).1)) = false) :
    (Handler (Store.mk d ro wo)
      { Accounts := pre ++ bad :: post,
        PathParameters := { BreachName := bn } }).err = some HErr.storeRead ∧
    (Handler (Store.mk d ro wo)
      { Accounts := pre ++ bad :: post,
        PathParameters := { BreachName := bn } }).store.data = d ∧
    (Handler (Store.mk d ro wo)
      { Accounts := pre ++ bad :: post,
        PathParameters := { BreachName := bn } }).trace =
      (pre ++ [bad]).map
        (fun r => Event.read (accountKey (mkAccount (NewEmail r).1))) := by
  have hm : mappedAccounts (pre ++ bad :: post) =
      (pre.map (fun r => mkAccount (NewEmail r).1)) ++
        mkAccount (NewEmail bad).1 ::
          (post.map (fun r => mkAccount (NewEmail r).1)) := by
    simp [mappedAccounts]
  have hpre2 : ∀ a ∈ pre.map (fun r => mkAccount (NewEmail r).1),
      (Store.mk d ro wo).readOk (accountKey a) = true := by
    intro a ha
    obtain ⟨r, hr, hra⟩ := List.mem_map.mp ha
    rw [← hra]
    exact hpre r hr
  have hsab : setAccountBreaches (Store.mk d ro wo)
      (mappedAccounts (pre ++ bad :: post)) bn =
      ((pre ++ [bad]).map
        (fun r => Event.read (accountKey (mkAccount (NewEmail r).1))),
       Except.error HErr.storeRead) := by
    rw [setAccountBreaches, hm,
      setAccountBreachesGo_fail (Store.mk d ro wo) bn
        (pre.map (fun r => mkAccount (NewEmail r).1))
        (mkAccount (NewEmail bad).1)
        (post.map (fun r => mkAccount (NewEmail r).1)) [] [] hpre2 hbad]
    simp [List.map_append, List.map_map, Function.comp]
  simp only [Handler, mapToAccount_eq]
  rw [hsab]
  exact ⟨rfl, rfl, rfl⟩

/-- Witness for C2 (amended): the concrete two-account batch whose second
read fails: abort with `storeRead`, data untouched, trace exactly the two
reads in order. -/
theorem readFail_abort_no_writes_witness :
    (Handler (Store.mk (fun _ => (none : Option Account))
        (fun k => k != (("EMAIL#b.com" : String), ("EMAIL#b" : String)))
        (fun _ => true))
      { Accounts := ["a@a.com"] ++ "b@b.com" :: [],
        PathParameters := { BreachName := "X" } }).err = some HErr.storeRead ∧
    (Handler (Store.mk (fun _ => (none : Option Account))
        (fun k => k != (("EMAIL#b.com" : String), ("EMAIL#b" : String)))
        (fun _ => true))
      { Accounts := ["a@a.com"] ++ "b@b.com" :: [],
        PathParameters := { BreachName := "X" } }).store.data =
      (fun _ => (none : Option Account)) ∧
    (Handler (Store.mk (fun _ => (none : Option Account))
        (fun k => k != (("EMAIL#b.com" : String), ("EMAIL#b" : String)))
        (fun _ => true))
      { Accounts := ["a@a.com"] ++ "b@b.com" :: [],
        PathParameters := { BreachName := "X" } }).trace =
      (["a@a.com"] ++ ["b@b.com"]).map
        (fun r => Event.read (accountKey (mkAccount (NewEmail r).1))) :=
  readFail_abort_no_writes (fun _ => none)
    (fun k => k != (("EMAIL#b.com" : String), ("EMAIL#b" : String)))
    (fun _ => true) "X" ["a@a.com"] [] "b@b.com" (by decide) (by decide)

end Haveibeenbreached
